import Mathlib


/-!
Verification of the antigravity-agent frontend services.

JavaScript strings are modelled as lists of UTF-16 code units (`List Nat`,
each element below 2^16 for a real JS string).  The platform primitives the
source relies on (`TextEncoder`/`TextDecoder`, `btoa`/`atob`) are modelled
after their WHATWG specifications; everything else is translated directly
from the TypeScript sources:
  - src/services/config-export-manager/encryption-provider.ts
  - src/services/system-tray-service.ts
  - the AntigravityService file (unnamed part of the repository)
-/

namespace Antigravity

/-- Surrogate/scalar classification of a UTF-16 code unit. -/
def isHighSurrogate (u : Nat) : Bool := 0xD800 ≤ u && u ≤ 0xDBFF

/-- Low (trailing) surrogate code unit test. -/
def isLowSurrogate (u : Nat) : Bool := 0xDC00 ≤ u && u ≤ 0xDFFF

/-- WHATWG conversion of a UTF-16 code-unit sequence to Unicode scalar
values: a high surrogate followed by a low surrogate combines to an astral
code point, any unpaired surrogate becomes U+FFFD.  This is the first stage
of `TextEncoder.encode`. -/
def utf16ToCodepoints : List Nat → List Nat
  | [] => []
  | u :: rest =>
    if isHighSurrogate u then
      match rest with
      | [] => [0xFFFD]
      | v :: rest2 =>
        if isLowSurrogate v then
          (0x10000 + (u - 0xD800) * 1024 + (v - 0xDC00)) :: utf16ToCodepoints rest2
        else
          0xFFFD :: utf16ToCodepoints (v :: rest2)
    else if isLowSurrogate u then
      0xFFFD :: utf16ToCodepoints rest
    else
      u :: utf16ToCodepoints rest

/-- Expansion of a Unicode scalar value back into UTF-16 code units:
BMP code points are one unit, astral code points become a surrogate pair.
This is how `TextDecoder.decode` builds its resulting JS string. -/
def cpUnits (c : Nat) : List Nat :=
  if c < 0x10000 then [c]
  else [0xD800 + (c - 0x10000) / 1024, 0xDC00 + (c - 0x10000) % 1024]

/-- Well-formedness of a UTF-16 code-unit sequence: every unit is below
2^16, every high surrogate is immediately followed by a low surrogate and
no low surrogate appears unpaired. -/
def wellFormedUtf16 : List Nat → Bool
  | [] => true
  | u :: rest =>
    if isHighSurrogate u then
      match rest with
      | [] => false
      | v :: rest2 => isLowSurrogate v && wellFormedUtf16 rest2
    else if isLowSurrogate u then false
    else decide (u < 0x10000) && wellFormedUtf16 rest

/-- UTF-8 byte sequence of a single Unicode scalar value. -/
def encCp (c : Nat) : List Nat :=
  if c < 0x80 then [c]
  else if c < 0x800 then [0xC0 + c / 64, 0x80 + c % 64]
  else if c < 0x10000 then
    [0xE0 + c / 4096, 0x80 + c / 64 % 64, 0x80 + c % 64]
  else
    [0xF0 + c / 262144, 0x80 + c / 4096 % 64, 0x80 + c / 64 % 64, 0x80 + c % 64]

/-- Model of `TextEncoder.encode`: convert the code units to scalar values
(with U+FFFD replacement of unpaired surrogates), then emit UTF-8 bytes. -/
def encodeUtf8 (s : List Nat) : List Nat :=
  (utf16ToCodepoints s).flatMap encCp

/-- Lower bound imposed by the WHATWG UTF-8 decoder on the second byte of a
multi-byte sequence led by `b1`. -/
def utf8Lo (b1 : Nat) : Nat :=
  if b1 = 0xE0 then 0xA0 else if b1 = 0xF0 then 0x90 else 0x80

/-- Upper bound imposed by the WHATWG UTF-8 decoder on the second byte of a
multi-byte sequence led by `b1`. -/
def utf8Hi (b1 : Nat) : Nat :=
  if b1 = 0xED then 0x9F else if b1 = 0xF4 then 0x8F else 0xBF

/-- One step of the WHATWG UTF-8 decoder, given the lead byte and three
bytes of lookahead: returns the decoded (or U+FFFD replacement) code point
together with the number of bytes consumed.  A missing lookahead byte is
passed as the sentinel 999, which fails every continuation-byte range check
exactly as absence does in the WHATWG decoder (the replacement and the
consumed count coincide in the two situations). -/
def utf8StepWith (b1 x2 x3 x4 : Nat) : Nat × Nat :=
  if b1 < 0x80 then (b1, 1)
  else if b1 < 0xC2 then (0xFFFD, 1)
  else if b1 ≤ 0xDF then
    if 0x80 ≤ x2 ∧ x2 ≤ 0xBF then ((b1 - 0xC0) * 64 + (x2 - 0x80), 2)
    else (0xFFFD, 1)
  else if b1 ≤ 0xEF then
    if utf8Lo b1 ≤ x2 ∧ x2 ≤ utf8Hi b1 then
      if 0x80 ≤ x3 ∧ x3 ≤ 0xBF then
        ((b1 - 0xE0) * 4096 + (x2 - 0x80) * 64 + (x3 - 0x80), 3)
      else (0xFFFD, 2)
    else (0xFFFD, 1)
  else if b1 ≤ 0xF4 then
    if utf8Lo b1 ≤ x2 ∧ x2 ≤ utf8Hi b1 then
      if 0x80 ≤ x3 ∧ x3 ≤ 0xBF then
        if 0x80 ≤ x4 ∧ x4 ≤ 0xBF then
          ((b1 - 0xF0) * 262144 + (x2 - 0x80) * 4096 +
            (x3 - 0x80) * 64 + (x4 - 0x80), 4)
        else (0xFFFD, 3)
      else (0xFFFD, 2)
    else (0xFFFD, 1)
  else (0xFFFD, 1)

/-- Decoder step on a byte list (lookahead extracted from the list). -/
def utf8Step : List Nat → Nat × Nat
  | [] => (0, 1)
  | b1 :: t => utf8StepWith b1 (t.getD 0 999) (t.getD 1 999) (t.getD 2 999)

/-- Fuelled driver of the UTF-8 decoder; with fuel at least the length of
the byte list it consumes all bytes.  Structural recursion on the fuel
keeps the function kernel-reducible. -/
def utf8Run : Nat → List Nat → List Nat
  | _, [] => []
  | 0, _ :: _ => []
  | fuel + 1, b :: t =>
    (utf8Step (b :: t)).1 :: utf8Run fuel ((b :: t).drop (max (utf8Step (b :: t)).2 1))

/-- Model of the WHATWG UTF-8 decode: bytes to code points, invalid
sequences replaced by U+FFFD (a `TextDecoder` built without options never
throws). -/
def decodeUtf8 (l : List Nat) : List Nat := utf8Run l.length l

/-- Removal of a single leading U+FEFF, the byte-order mark.  A default
`TextDecoder` has `ignoreBOM: false`, so the WHATWG decode hook skips a
leading EF BB BF byte sequence; since EF BB BF is the only byte sequence
the UTF-8 decoder turns into a first code point U+FEFF, stripping that
code point after decoding is equivalent. -/
def bomStrip (l : List Nat) : List Nat :=
  match l with
  | [] => []
  | c :: rest => if c = 0xFEFF then rest else c :: rest

/-- Model of `TextDecoder.decode` built without options: UTF-8 decode the
bytes, strip a leading byte-order mark (`ignoreBOM` defaults to false) and
lay the code points out as UTF-16 code units. -/
def decodeBytes (l : List Nat) : List Nat := (bomStrip (decodeUtf8 l)).flatMap cpUnits

/-- Character code of the base64 digit for a sextet (0..63). -/
def b64c (n : Nat) : Nat :=
  if n < 26 then 65 + n
  else if n < 52 then 97 + (n - 26)
  else if n < 62 then 48 + (n - 52)
  else if n = 62 then 43
  else 47

/-- Membership of a character code in the base64 alphabet. -/
def isB64Char (c : Nat) : Bool :=
  (65 ≤ c && c ≤ 90) || (97 ≤ c && c ≤ 122) || (48 ≤ c && c ≤ 57) || c = 43 || c = 47

/-- Sextet value of a base64 alphabet character code. -/
def b64v (c : Nat) : Nat :=
  if 65 ≤ c ∧ c ≤ 90 then c - 65
  else if 97 ≤ c ∧ c ≤ 122 then c - 97 + 26
  else if 48 ≤ c ∧ c ≤ 57 then c - 48 + 52
  else if c = 43 then 62
  else if c = 47 then 63
  else 0

/-- ASCII whitespace, skipped by the forgiving-base64 decoder. -/
def isWsChar (c : Nat) : Bool := c = 9 || c = 10 || c = 12 || c = 13 || c = 32

/-- Model of `btoa` on a binary string of bytes: standard base64 with
trailing `=` padding. -/
def btoaEnc : List Nat → List Nat
  | [] => []
  | [b1] => [b64c (b1 / 4), b64c (b1 % 4 * 16), 61, 61]
  | [b1, b2] => [b64c (b1 / 4), b64c (b1 % 4 * 16 + b2 / 16), b64c (b2 % 16 * 4), 61]
  | b1 :: b2 :: b3 :: rest =>
    b64c (b1 / 4) :: b64c (b1 % 4 * 16 + b2 / 16) ::
      b64c (b2 % 16 * 4 + b3 / 64) :: b64c (b3 % 64) :: btoaEnc rest

/-- Full model of `btoa`: it throws (here `none`) when some code unit of
its argument is not a byte. -/
def jsBtoa (s : List Nat) : Option (List Nat) :=
  if s.all (fun b => b < 256) then some (btoaEnc s) else none

/-- Removal of trailing `=` padding (at most two), as the forgiving-base64
decoder does when the input length is a multiple of four. -/
def stripPad : List Nat → List Nat
  | [] => []
  | [a] => if a = 61 then [] else [a]
  | [a, b] => if b = 61 then (if a = 61 then [] else [a]) else [a, b]
  | a :: b :: c :: rest => a :: stripPad (b :: c :: rest)

/-- Regrouping of sextets into bytes: every full group of four sextets
yields three bytes, a trailing group of two or three sextets yields one or
two bytes with the excess bits discarded. -/
def sextetsToBytes : List Nat → List Nat
  | s1 :: s2 :: s3 :: s4 :: rest =>
    (s1 * 4 + s2 / 16) :: (s2 % 16 * 16 + s3 / 4) :: (s3 % 4 * 64 + s4) :: sextetsToBytes rest
  | [s1, s2] => [s1 * 4 + s2 / 16]
  | [s1, s2, s3] => [s1 * 4 + s2 / 16, s2 % 16 * 16 + s3 / 4]
  | _ => []

/-- Model of `atob` (WHATWG forgiving-base64 decode): strip ASCII
whitespace, drop the trailing padding when the length is a multiple of
four, then fail when the length is 1 mod 4 or a character is outside the
alphabet, otherwise regroup the sextets into bytes. -/
def atobDec (s : List Nat) : Option (List Nat) :=
  let t := s.filter (fun c => !isWsChar c)
  let t2 := if t.length % 4 = 0 then stripPad t else t
  if t2.length % 4 = 1 then none
  else if t2.all isB64Char then some (sextetsToBytes (t2.map b64v))
  else none

/-- Model of `ConfigEncryptionProvider.unicodeBase64Encode`
(encryption-provider.ts, lines 17-31): UTF-8 encode the string with
`TextEncoder`, lay the bytes out as a binary string and apply `btoa`.
`none` would mean the unreachable failure of both `btoa` paths. -/
def unicodeBase64Encode (s : List Nat) : Option (List Nat) :=
  jsBtoa (encodeUtf8 s)

/-- Model of `ConfigEncryptionProvider.unicodeBase64Decode`
(encryption-provider.ts, lines 37-55): `atob` the input into bytes and
decode them with `TextDecoder`; when `atob` throws, the fallback path calls
`atob` again and the function throws its decode error (`none`).
`TextDecoder` built without options never throws, so its fallback is
unreachable. -/
def unicodeBase64Decode (s : List Nat) : Option (List Nat) :=
  (atobDec s).map decodeBytes

/-- Model of the XOR loop shared by `encrypt` and `decrypt`
(encryption-provider.ts, lines 66-70 and 86-90): each code unit is XORed
with the password code unit at the index modulo the password length.  For
the empty password, `i % 0` is `NaN` in JavaScript, `charCodeAt(NaN)` on
the empty string is `NaN`, and `x ^ NaN` is `x`, so the unit passes
through unchanged. -/
def xorWith (pw : List Nat) : Nat → List Nat → List Nat
  | _, [] => []
  | i, c :: rest =>
    (if pw.length = 0 then c else c ^^^ pw.getD (i % pw.length) 0) :: xorWith pw (i + 1) rest

/-- Model of `ConfigEncryptionProvider.encrypt` (encryption-provider.ts,
lines 64-72). -/
def encrypt (data pw : List Nat) : Option (List Nat) :=
  unicodeBase64Encode (xorWith pw 0 data)

/-- Model of `ConfigEncryptionProvider.decrypt` (encryption-provider.ts,
lines 82-95); `none` is the thrown decryption error. -/
def decrypt (encryptedData pw : List Nat) : Option (List Nat) :=
  (unicodeBase64Decode encryptedData).map (xorWith pw 0)

/-- Result shape of `validatePassword`. -/
structure PasswordValidation where
  isValid : Bool
  message : Option String
  deriving Repr, DecidableEq

/-- Model of `ConfigEncryptionProvider.validatePassword`
(encryption-provider.ts, lines 103-113). -/
def validatePassword (pw : List Nat) : PasswordValidation :=
  if pw.length = 0 then ⟨false, some "请输入密码"⟩
  else if pw.length < 4 then ⟨false, some "密码长度至少为4个字符"⟩
  else ⟨true, none⟩

/-- Model of `String.prototype.lastIndexOf` for a single character:
the greatest index holding the character, or -1. -/
def jsLastIndexOf : List Nat → Nat → Int
  | [], _ => -1
  | a :: rest, c =>
    if jsLastIndexOf rest c = -1 then (if a = c then 0 else -1)
    else jsLastIndexOf rest c + 1

/-- Model of `String.prototype.charAt`: the one-character string at the
index, empty when out of range. -/
def charAtStr (l : List Nat) (i : Nat) : List Nat :=
  match l[i]? with
  | some c => [c]
  | none => []

/-- Model of `maskUsername` (system-tray-service.ts area, lines 151-180):
find the last `@`; with no `@`, an `@` first or an `@` last, return the
input unchanged; with a local part of at most two characters return the
input unchanged (this guard makes the following `=== 2` branch
unreachable); otherwise keep the first and last local characters, star the
middle and keep the domain. -/
def maskUsername (email : List Nat) : List Nat :=
  if email = [] then email
  else
    let atIndex : Int := jsLastIndexOf email 64
    if atIndex ≤ 0 ∨ (email.length : Int) - 1 ≤ atIndex then email
    else
      let k := atIndex.toNat
      let localPart := email.take k
      let domainPart := email.drop k
      if localPart.length ≤ 2 then email
      else if localPart.length = 2 then charAtStr localPart 0 ++ [42] ++ domainPart
      else
        charAtStr localPart 0 ++ List.replicate (localPart.length - 2) 42 ++
          charAtStr localPart (localPart.length - 1) ++ domainPart

/-- Model of `maskBackupFilename` (system-tray-service.ts area, lines
187-194): empty input unchanged, otherwise `maskUsername`. -/
def maskBackupFilename (backupFile : List Nat) : List Nat :=
  if backupFile = [] then backupFile else maskUsername backupFile

/-- Result shape of the tray operations. -/
structure SystemTrayStatus where
  enabled : Bool
  message : Option String
  deriving Repr, DecidableEq

/-- Model of `SystemTrayService.enableSystemTray` (system-tray-service.ts,
lines 21-34): the backend outcome is passed explicitly, `Except.error`
standing for a rejected `invoke`. -/
def enableSystemTray (r : Except String String) : SystemTrayStatus :=
  match r with
  | .ok m => ⟨true, some m⟩
  | .error e => ⟨false, some ("启用系统托盘失败: " ++ e)⟩

/-- Model of `SystemTrayService.disableSystemTray`
(system-tray-service.ts, lines 39-52). -/
def disableSystemTray (r : Except String String) : SystemTrayStatus :=
  match r with
  | .ok m => ⟨false, some m⟩
  | .error e => ⟨false, some ("禁用系统托盘失败: " ++ e)⟩

/-- Model of `SystemTrayService.minimizeToTray` (system-tray-service.ts,
lines 57-59): the backend outcome is returned as is, a rejection
propagates to the caller. -/
def minimizeToTray (r : Except String String) : Except String String := r

/-- Model of `SystemTrayService.restoreFromTray` (system-tray-service.ts,
lines 64-66): the backend outcome propagates unchanged. -/
def restoreFromTray (r : Except String String) : Except String String := r

/-- Model of `SystemTrayService.isSystemTrayEnabled`
(system-tray-service.ts, lines 71-73): the backend outcome propagates
unchanged. -/
def isSystemTrayEnabled (r : Except String Bool) : Except String Bool := r

/-- Model of `SystemTrayService.toggleSystemTray` (system-tray-service.ts,
lines 78-84). -/
def toggleSystemTray (enabled : Bool) (r : Except String String) : SystemTrayStatus :=
  if enabled then enableSystemTray r else disableSystemTray r

/-- Model of `SystemTrayService.saveSystemTrayState`
(system-tray-service.ts, lines 89-96): a rejection is caught and rethrown
wrapped in a localized message. -/
def saveSystemTrayState (r : Except String String) : Except String String :=
  match r with
  | .ok m => .ok m
  | .error e => .error ("保存系统托盘状态失败: " ++ e)

/-- Model of `SystemTrayService.getSystemTrayState`
(system-tray-service.ts, lines 101-108): a rejection is caught and the
default `true` returned. -/
def getSystemTrayState (r : Except String Bool) : Bool :=
  match r with
  | .ok b => b
  | .error _ => true

/-- Model of `SystemTrayService.enableSystemTrayWithSave`
(system-tray-service.ts, lines 113-126): enable, then persist when the
status reports enabled; a throw of `saveSystemTrayState` lands in the
outer catch, which reports `enabled := false` with a wrapped message (the
template literal renders the thrown `Error`). -/
def enableSystemTrayWithSave (er sr : Except String String) : SystemTrayStatus :=
  let status := enableSystemTray er
  if status.enabled then
    match saveSystemTrayState sr with
    | .ok _ => status
    | .error e => ⟨false, some ("启用系统托盘失败: Error: " ++ e)⟩
  else status

/-- Model of `SystemTrayService.disableSystemTrayWithSave`
(system-tray-service.ts, lines 131-144). -/
def disableSystemTrayWithSave (dr sr : Except String String) : SystemTrayStatus :=
  let status := disableSystemTray dr
  if !status.enabled then
    match saveSystemTrayState sr with
    | .ok _ => status
    | .error e => ⟨false, some ("禁用系统托盘失败: Error: " ++ e)⟩
  else status

/-- Backend commands awaited by `enableSystemTrayWithSave`, in order,
following the source control flow: `enable_system_tray` always, then
`save_system_tray_state` exactly when the enable status reports enabled.
No other command — in particular no disabling rollback — is ever issued. -/
def enableSystemTrayWithSaveCalls (er : Except String String) : List String :=
  if (enableSystemTray er).enabled then ["enable_system_tray", "save_system_tray_state"]
  else ["enable_system_tray"]

/-- Backend commands awaited by `disableSystemTrayWithSave`, in order,
following the source control flow. -/
def disableSystemTrayWithSaveCalls (dr : Except String String) : List String :=
  if !(disableSystemTray dr).enabled then ["disable_system_tray", "save_system_tray_state"]
  else ["disable_system_tray"]

/-- Model of `AntigravityService.getBackupList` (AntigravityService file,
lines 80-91): a `null` result raises the local error, any failure is
caught and rethrown wrapped in a localized message. -/
def getBackupList (r : Except String (Option (List String))) : Except String (List String) :=
  match r with
  | .ok (some l) => .ok l
  | .ok none => .error ("获取备份列表失败: " ++ "无法获取备份列表")
  | .error e => .error ("获取备份列表失败: " ++ e)

/-- Unicode scalar value test: below 0x110000 and not a surrogate. -/
def isScalar (c : Nat) : Bool := decide (c < 0x110000 ∧ (c < 0xD800 ∨ 0xDFFF < c))

/-- Base64 encoding without the trailing `=` padding; auxiliary description
of what `stripPad` leaves of `btoaEnc`. -/
def noPadEnc : List Nat → List Nat
  | [] => []
  | [b1] => [b64c (b1 / 4), b64c (b1 % 4 * 16)]
  | [b1, b2] => [b64c (b1 / 4), b64c (b1 % 4 * 16 + b2 / 16), b64c (b2 % 16 * 4)]
  | b1 :: b2 :: b3 :: rest =>
    b64c (b1 / 4) :: b64c (b1 % 4 * 16 + b2 / 16) ::
      b64c (b2 % 16 * 4 + b3 / 64) :: b64c (b3 % 64) :: noPadEnc rest

theorem xorWith_nil (i : Nat) (t : List Nat) : xorWith [] i t = t := by
  induction t generalizing i with
  | nil => rfl
  | cons c rest ih => simp [xorWith, ih]

theorem xorWith_involution (pw : List Nat) (i : Nat) (t : List Nat) :
    xorWith pw i (xorWith pw i t) = t := by
  induction t generalizing i with
  | nil => rfl
  | cons c rest ih =>
    by_cases h : pw.length = 0
    · simp [xorWith, h, ih]
    · simp only [xorWith, h, if_false, ih]
      rw [Nat.xor_assoc, Nat.xor_self, Nat.xor_zero]

theorem b64c_ne_61 (n : Nat) : b64c n ≠ 61 := by
  unfold b64c; split_ifs <;> omega

theorem b64c_isB64 (n : Nat) : isB64Char (b64c n) = true := by
  unfold b64c isB64Char; split_ifs <;> simp <;> omega

theorem b64c_not_ws (n : Nat) : isWsChar (b64c n) = false := by
  unfold b64c isWsChar; split_ifs <;> simp <;> omega

theorem b64v_b64c : ∀ n, n < 64 → b64v (b64c n) = n := by decide

theorem isWsChar_61 : isWsChar 61 = false := rfl

theorem btoaEnc_filter : ∀ l : List Nat,
    (btoaEnc l).filter (fun c => !isWsChar c) = btoaEnc l := by
  intro l
  match l with
  | [] => rfl
  | [b1] => simp [btoaEnc, List.filter_cons, b64c_not_ws, isWsChar_61]
  | [b1, b2] => simp [btoaEnc, List.filter_cons, b64c_not_ws, isWsChar_61]
  | b1 :: b2 :: b3 :: rest =>
    simp [btoaEnc, List.filter_cons, b64c_not_ws, btoaEnc_filter rest]

theorem btoaEnc_len_mod : ∀ l : List Nat, (btoaEnc l).length % 4 = 0 := by
  intro l
  match l with
  | [] => rfl
  | [b1] => simp [btoaEnc]
  | [b1, b2] => simp [btoaEnc]
  | b1 :: b2 :: b3 :: rest =>
    have ih := btoaEnc_len_mod rest
    simp only [btoaEnc, List.length_cons]
    omega

theorem btoaEnc_shape : ∀ l : List Nat, l ≠ [] →
    ∃ e1 e2 e3 e4 es, btoaEnc l = e1 :: e2 :: e3 :: e4 :: es := by
  intro l h
  match l with
  | [b1] => exact ⟨_, _, _, _, _, rfl⟩
  | [b1, b2] => exact ⟨_, _, _, _, _, rfl⟩
  | b1 :: b2 :: b3 :: rest => exact ⟨_, _, _, _, _, rfl⟩

theorem stripPad_btoaEnc : ∀ l : List Nat, stripPad (btoaEnc l) = noPadEnc l := by
  intro l
  match l with
  | [] => rfl
  | [b1] => simp [btoaEnc, stripPad, noPadEnc]
  | [b1, b2] => simp [btoaEnc, stripPad, noPadEnc, b64c_ne_61]
  | [b1, b2, b3] => simp [btoaEnc, stripPad, noPadEnc, b64c_ne_61]
  | b1 :: b2 :: b3 :: b4 :: rest =>
    have hne : (b4 :: rest) ≠ [] := by simp
    obtain ⟨e1, e2, e3, e4, es, hsh⟩ := btoaEnc_shape (b4 :: rest) hne
    have ih := stripPad_btoaEnc (b4 :: rest)
    simp only [btoaEnc, noPadEnc]
    rw [hsh, ← ih, hsh]
    simp only [stripPad]

theorem noPadEnc_len_mod : ∀ l : List Nat, (noPadEnc l).length % 4 ≠ 1 := by
  intro l
  match l with
  | [] => simp [noPadEnc]
  | [b1] => simp [noPadEnc]
  | [b1, b2] => simp [noPadEnc]
  | b1 :: b2 :: b3 :: rest =>
    have ih := noPadEnc_len_mod rest
    simp only [noPadEnc, List.length_cons]
    omega

theorem noPadEnc_all_b64 : ∀ l : List Nat, (noPadEnc l).all isB64Char = true := by
  intro l
  match l with
  | [] => rfl
  | [b1] => simp [noPadEnc, b64c_isB64]
  | [b1, b2] => simp [noPadEnc, b64c_isB64]
  | b1 :: b2 :: b3 :: rest =>
    have ih := noPadEnc_all_b64 rest
    simp [noPadEnc, b64c_isB64, ih]

theorem noPadEnc_decode : ∀ l : List Nat, (∀ b ∈ l, b < 256) →
    sextetsToBytes ((noPadEnc l).map b64v) = l := by
  intro l hb
  match l with
  | [] => rfl
  | [b1] =>
    have h1 : b1 < 256 := hb b1 (by simp)
    simp only [noPadEnc, List.map, sextetsToBytes]
    rw [b64v_b64c _ (by omega), b64v_b64c _ (by omega)]
    simp only [List.cons.injEq, and_true]
    omega
  | [b1, b2] =>
    have h1 : b1 < 256 := hb b1 (by simp)
    have h2 : b2 < 256 := hb b2 (by simp)
    simp only [noPadEnc, List.map, sextetsToBytes]
    rw [b64v_b64c _ (by omega), b64v_b64c _ (by omega), b64v_b64c _ (by omega)]
    simp only [List.cons.injEq, and_true]
    omega
  | b1 :: b2 :: b3 :: rest =>
    have h1 : b1 < 256 := hb b1 (by simp)
    have h2 : b2 < 256 := hb b2 (by simp)
    have h3 : b3 < 256 := hb b3 (by simp)
    have ih := noPadEnc_decode rest (fun b h => hb b (by simp [h]))
    simp only [noPadEnc, List.map, sextetsToBytes]
    rw [b64v_b64c _ (by omega), b64v_b64c _ (by omega), b64v_b64c _ (by omega),
      b64v_b64c _ (by omega)]
    simp only [List.cons.injEq, ih, and_true]
    omega

/-- Round trip of the base64 layer: `atob` applied to the output of `btoa`
on a byte string recovers the bytes. -/
theorem atob_btoa (l : List Nat) (hb : ∀ b ∈ l, b < 256) :
    atobDec (btoaEnc l) = some l := by
  unfold atobDec
  simp only [btoaEnc_filter, btoaEnc_len_mod, if_pos, stripPad_btoaEnc]
  rw [if_neg (noPadEnc_len_mod l)]
  rw [if_pos (noPadEnc_all_b64 l)]
  rw [noPadEnc_decode l hb]

theorem isScalar_elim (c : Nat) (h : isScalar c = true) :
    c < 0x110000 ∧ (c < 0xD800 ∨ 0xDFFF < c) :=
  of_decide_eq_true h

theorem encCp_bytes_lt (c : Nat) (h : c < 0x110000) : ∀ b ∈ encCp c, b < 256 := by
  intro b hb
  unfold encCp at hb
  split_ifs at hb with w1 w2 w3
  · simp only [List.mem_singleton] at hb; omega
  · simp only [List.mem_cons, List.not_mem_nil, or_false] at hb
    rcases hb with rfl | rfl <;> omega
  · simp only [List.mem_cons, List.not_mem_nil, or_false] at hb
    rcases hb with rfl | rfl | rfl <;> omega
  · simp only [List.mem_cons, List.not_mem_nil, or_false] at hb
    rcases hb with rfl | rfl | rfl | rfl <;> omega

theorem flatMap_encCp_lt (cps : List Nat) (h : ∀ c ∈ cps, isScalar c = true) :
    ∀ b ∈ cps.flatMap encCp, b < 256 := by
  intro b hb
  simp only [List.mem_flatMap] at hb
  obtain ⟨c, hc, hbc⟩ := hb
  exact encCp_bytes_lt c (isScalar_elim c (h c hc)).1 b hbc

theorem getD_cons_0 (y d : Nat) (t : List Nat) : (y :: t).getD 0 d = y := rfl

theorem getD_cons_1 (y d : Nat) (t : List Nat) : (y :: t).getD 1 d = t.getD 0 d := rfl

theorem getD_cons_2 (y d : Nat) (t : List Nat) : (y :: t).getD 2 d = t.getD 1 d := rfl

theorem utf8Step_cons (b1 : Nat) (t : List Nat) :
    utf8Step (b1 :: t) = utf8StepWith b1 (t.getD 0 999) (t.getD 1 999) (t.getD 2 999) := rfl

/-- Stepping the WHATWG decoder at the UTF-8 encoding of a scalar value
decodes exactly that scalar and consumes exactly its bytes. -/
theorem utf8Step_encCp (c : Nat) (rest : List Nat) (h1 : c < 0x110000)
    (h2 : c < 0xD800 ∨ 0xDFFF < c) :
    utf8Step (encCp c ++ rest) = (c, (encCp c).length) := by
  by_cases ha : c < 0x80
  · have he : encCp c = [c] := by simp [encCp, ha]
    rw [he]
    simp only [List.cons_append, List.nil_append, utf8Step_cons, List.length_cons,
      List.length_nil]
    unfold utf8StepWith
    rw [if_pos ha]
  · by_cases hb : c < 0x800
    · have he : encCp c = [0xC0 + c / 64, 0x80 + c % 64] := by simp [encCp, ha, hb]
      rw [he]
      simp only [List.cons_append, List.nil_append, utf8Step_cons, getD_cons_0,
        getD_cons_1, getD_cons_2, List.length_cons, List.length_nil]
      unfold utf8StepWith
      rw [if_neg (by omega), if_neg (by omega), if_pos (by omega), if_pos (by omega)]
      have hval : (0xC0 + c / 64 - 0xC0) * 64 + (0x80 + c % 64 - 0x80) = c := by omega
      rw [hval]
    · by_cases hcc : c < 0x10000
      · have he : encCp c = [0xE0 + c / 4096, 0x80 + c / 64 % 64, 0x80 + c % 64] := by
          simp [encCp, ha, hb, hcc]
        rw [he]
        simp only [List.cons_append, List.nil_append, utf8Step_cons, getD_cons_0,
          getD_cons_1, getD_cons_2, List.length_cons, List.length_nil]
        unfold utf8StepWith utf8Lo utf8Hi
        rw [if_neg (by omega), if_neg (by omega), if_neg (by omega), if_pos (by omega)]
        rw [if_pos (by split_ifs <;> omega)]
        rw [if_pos (by omega)]
        have hval : (0xE0 + c / 4096 - 0xE0) * 4096 + (0x80 + c / 64 % 64 - 0x80) * 64 +
            (0x80 + c % 64 - 0x80) = c := by omega
        rw [hval]
      · have he : encCp c = [0xF0 + c / 262144, 0x80 + c / 4096 % 64,
            0x80 + c / 64 % 64, 0x80 + c % 64] := by
          simp [encCp, ha, hb, hcc]
        rw [he]
        simp only [List.cons_append, List.nil_append, utf8Step_cons, getD_cons_0,
          getD_cons_1, getD_cons_2, List.length_cons, List.length_nil]
        unfold utf8StepWith utf8Lo utf8Hi
        rw [if_neg (by omega), if_neg (by omega), if_neg (by omega), if_neg (by omega),
          if_pos (by omega)]
        rw [if_pos (by split_ifs <;> omega)]
        rw [if_pos (by omega), if_pos (by omega)]
        have hval : (0xF0 + c / 262144 - 0xF0) * 262144 +
            (0x80 + c / 4096 % 64 - 0x80) * 4096 +
            (0x80 + c / 64 % 64 - 0x80) * 64 + (0x80 + c % 64 - 0x80) = c := by omega
        rw [hval]

theorem encCp_ne_nil (c : Nat) : encCp c ≠ [] := by
  unfold encCp; split_ifs <;> simp

theorem encCp_len_pos (c : Nat) : 1 ≤ (encCp c).length := by
  have := encCp_ne_nil c
  cases hc : encCp c with
  | nil => exact absurd hc this
  | cons x xs => simp

/-- Driving the fuelled decoder over a concatenation of scalar encodings
recovers the scalar sequence, for any sufficient fuel. -/
theorem utf8Run_flatMap : ∀ (cps : List Nat) (fuel : Nat),
    (∀ c ∈ cps, isScalar c = true) → (cps.flatMap encCp).length ≤ fuel →
    utf8Run fuel (cps.flatMap encCp) = cps := by
  intro cps
  induction cps with
  | nil => intro fuel _ _; cases fuel <;> rfl
  | cons c cps ih =>
    intro fuel hsc hlen
    have hc := isScalar_elim c (hsc c (by simp))
    have hstep := utf8Step_encCp c (cps.flatMap encCp) hc.1 hc.2
    have hflat : (c :: cps).flatMap encCp = encCp c ++ cps.flatMap encCp := by
      simp [List.flatMap_cons]
    rw [hflat] at hlen ⊢
    have hne : encCp c ++ cps.flatMap encCp ≠ [] := by
      simp [encCp_ne_nil c]
    obtain ⟨b, t, hbt⟩ : ∃ b t, encCp c ++ cps.flatMap encCp = b :: t := by
      cases hcase : encCp c ++ cps.flatMap encCp with
      | nil => exact absurd hcase hne
      | cons b t => exact ⟨b, t, rfl⟩
    have hlen1 : 1 ≤ (encCp c ++ cps.flatMap encCp).length := by
      rw [hbt]; simp
    obtain ⟨f, rfl⟩ : ∃ f, fuel = f + 1 := by
      cases fuel with
      | zero => omega
      | succ f => exact ⟨f, rfl⟩
    rw [hbt]
    show (utf8Step (b :: t)).1 ::
      utf8Run f ((b :: t).drop (max (utf8Step (b :: t)).2 1)) = c :: cps
    rw [← hbt, hstep]
    have hmax : max (encCp c).length 1 = (encCp c).length := by
      have := encCp_len_pos c
      omega
    rw [hmax]
    have hdrop : (encCp c ++ cps.flatMap encCp).drop (encCp c).length =
        cps.flatMap encCp := List.drop_left _ _
    rw [hdrop]
    have hrest : (cps.flatMap encCp).length ≤ f := by
      have hl : (encCp c ++ cps.flatMap encCp).length =
          (encCp c).length + (cps.flatMap encCp).length := List.length_append _ _
      have := encCp_len_pos c
      omega
    rw [ih f (fun x hx => hsc x (by simp [hx])) hrest]

theorem isHighSurrogate_elim (u : Nat) (h : isHighSurrogate u = true) :
    0xD800 ≤ u ∧ u ≤ 0xDBFF := by
  simpa [isHighSurrogate, Bool.and_eq_true, decide_eq_true_eq] using h

theorem isLowSurrogate_elim (u : Nat) (h : isLowSurrogate u = true) :
    0xDC00 ≤ u ∧ u ≤ 0xDFFF := by
  simpa [isLowSurrogate, Bool.and_eq_true, decide_eq_true_eq] using h

theorem isHighSurrogate_nelim (u : Nat) (h : ¬isHighSurrogate u = true) :
    ¬(0xD800 ≤ u ∧ u ≤ 0xDBFF) := by
  intro hc
  exact h (by simp [isHighSurrogate, Bool.and_eq_true, decide_eq_true_eq, hc.1, hc.2])

theorem isLowSurrogate_nelim (u : Nat) (h : ¬isLowSurrogate u = true) :
    ¬(0xDC00 ≤ u ∧ u ≤ 0xDFFF) := by
  intro hc
  exact h (by simp [isLowSurrogate, Bool.and_eq_true, decide_eq_true_eq, hc.1, hc.2])

/-- Every code point produced by the UTF-16 to scalar-value conversion of a
well-formed sequence is a Unicode scalar value. -/
theorem utf16_scalar : ∀ s : List Nat, wellFormedUtf16 s = true →
    ∀ c ∈ utf16ToCodepoints s, isScalar c = true
  | [] => by intro _ c hc; simp [utf16ToCodepoints] at hc
  | [u] => by
    intro hwf c hc
    by_cases hh : isHighSurrogate u = true
    · simp [wellFormedUtf16, hh] at hwf
    · by_cases hl : isLowSurrogate u = true
      · simp [wellFormedUtf16, hh, hl] at hwf
      · simp only [wellFormedUtf16, if_neg hh, if_neg hl, Bool.and_eq_true,
          decide_eq_true_eq] at hwf
        simp only [utf16ToCodepoints, if_neg hh, if_neg hl, List.mem_singleton] at hc
        subst hc
        have h1 := isHighSurrogate_nelim c hh
        have h2 := isLowSurrogate_nelim c hl
        unfold isScalar
        exact decide_eq_true (by omega)
  | u :: v :: rest2 => by
    intro hwf c hc
    by_cases hh : isHighSurrogate u = true
    · simp only [wellFormedUtf16, if_pos hh, Bool.and_eq_true] at hwf
      obtain ⟨hlow, hwf2⟩ := hwf
      simp only [utf16ToCodepoints, if_pos hh, if_pos hlow, List.mem_cons] at hc
      cases hc with
      | inl h0 =>
        have h1 := isHighSurrogate_elim u hh
        have h2 := isLowSurrogate_elim v hlow
        rw [h0]
        unfold isScalar
        exact decide_eq_true (by omega)
      | inr h0 => exact utf16_scalar rest2 hwf2 c h0
    · by_cases hl : isLowSurrogate u = true
      · simp [wellFormedUtf16, hh, hl] at hwf
      · simp only [wellFormedUtf16, if_neg hh, if_neg hl, Bool.and_eq_true,
          decide_eq_true_eq] at hwf
        obtain ⟨hu, hwf2⟩ := hwf
        simp only [utf16ToCodepoints, if_neg hh, if_neg hl, List.mem_cons] at hc
        cases hc with
        | inl h0 =>
          have h1 := isHighSurrogate_nelim u hh
          have h2 := isLowSurrogate_nelim u hl
          rw [h0]
          unfold isScalar
          exact decide_eq_true (by omega)
        | inr h0 => exact utf16_scalar (v :: rest2) hwf2 c h0
termination_by s => s.length
decreasing_by all_goals (simp [List.length_cons]; try omega)

/-- Expanding the scalar values of a well-formed UTF-16 sequence back into
code units recovers the sequence. -/
theorem utf16_roundtrip : ∀ s : List Nat, wellFormedUtf16 s = true →
    (utf16ToCodepoints s).flatMap cpUnits = s
  | [] => by intro _; rfl
  | [u] => by
    intro hwf
    by_cases hh : isHighSurrogate u = true
    · simp [wellFormedUtf16, hh] at hwf
    · by_cases hl : isLowSurrogate u = true
      · simp [wellFormedUtf16, hh, hl] at hwf
      · simp only [wellFormedUtf16, if_neg hh, if_neg hl, Bool.and_eq_true,
          decide_eq_true_eq] at hwf
        simp only [utf16ToCodepoints, if_neg hh, if_neg hl, List.flatMap_cons]
        have hcp : cpUnits u = [u] := by unfold cpUnits; rw [if_pos hwf.1]
        rw [hcp]
        rfl
  | u :: v :: rest2 => by
    intro hwf
    by_cases hh : isHighSurrogate u = true
    · simp only [wellFormedUtf16, if_pos hh, Bool.and_eq_true] at hwf
      obtain ⟨hlow, hwf2⟩ := hwf
      have h1 := isHighSurrogate_elim u hh
      have h2 := isLowSurrogate_elim v hlow
      simp only [utf16ToCodepoints, if_pos hh, if_pos hlow, List.flatMap_cons]
      rw [utf16_roundtrip rest2 hwf2]
      have hcp : cpUnits (0x10000 + (u - 0xD800) * 1024 + (v - 0xDC00)) = [u, v] := by
        unfold cpUnits
        rw [if_neg (by omega)]
        simp only [List.cons.injEq, and_true]
        constructor <;> omega
      rw [hcp]
      rfl
    · by_cases hl : isLowSurrogate u = true
      · simp [wellFormedUtf16, hh, hl] at hwf
      · simp only [wellFormedUtf16, if_neg hh, if_neg hl, Bool.and_eq_true,
          decide_eq_true_eq] at hwf
        obtain ⟨hu, hwf2⟩ := hwf
        simp only [utf16ToCodepoints, if_neg hh, if_neg hl, List.flatMap_cons]
        rw [utf16_roundtrip (v :: rest2) hwf2]
        have hcp : cpUnits u = [u] := by unfold cpUnits; rw [if_pos hu]
        rw [hcp]
        rfl
termination_by s => s.length
decreasing_by all_goals (simp [List.length_cons]; try omega)

theorem bomStrip_of_head_ne (l : List Nat) (h : l.head? ≠ some 0xFEFF) :
    bomStrip l = l := by
  cases l with
  | nil => rfl
  | cons c rest =>
    have hc : c ≠ 0xFEFF := by
      intro hc
      exact h (by simp [hc])
    simp only [bomStrip]
    rw [if_neg hc]

/-- Scalar-value conversion of a well-formed sequence that does not begin
with U+FEFF yields no leading U+FEFF either: a pass-through first unit is
kept and a combined surrogate pair lies above the BMP. -/
theorem utf16_head_bom (s : List Nat) (hwf : wellFormedUtf16 s = true)
    (h : s.head? ≠ some 0xFEFF) :
    (utf16ToCodepoints s).head? ≠ some 0xFEFF := by
  cases s with
  | nil => simp [utf16ToCodepoints]
  | cons u rest =>
    by_cases hh : isHighSurrogate u = true
    · cases rest with
      | nil => simp [wellFormedUtf16, hh] at hwf
      | cons v rest2 =>
        simp only [wellFormedUtf16, if_pos hh, Bool.and_eq_true] at hwf
        obtain ⟨hlow, _⟩ := hwf
        have h1 := isHighSurrogate_elim u hh
        have h2 := isLowSurrogate_elim v hlow
        simp only [utf16ToCodepoints, if_pos hh, if_pos hlow, List.head?_cons]
        intro hc
        simp only [Option.some.injEq] at hc
        omega
    · by_cases hl : isLowSurrogate u = true
      · cases rest with
        | nil => simp [wellFormedUtf16, hh, hl] at hwf
        | cons v rest2 => simp [wellFormedUtf16, hh, hl] at hwf
      · cases rest with
        | nil =>
          simp only [utf16ToCodepoints, if_neg hh, if_neg hl, List.head?_cons]
          simpa using h
        | cons v rest2 =>
          simp only [utf16ToCodepoints, if_neg hh, if_neg hl, List.head?_cons]
          simpa using h

/-- Decoding the `TextEncoder` bytes of a well-formed UTF-16 sequence that
does not begin with U+FEFF recovers the sequence with `TextDecoder` (a
leading U+FEFF would be stripped as a byte-order mark). -/
theorem decodeBytes_encodeUtf8 (s : List Nat) (h : wellFormedUtf16 s = true)
    (hbom : s.head? ≠ some 0xFEFF) :
    decodeBytes (encodeUtf8 s) = s := by
  unfold decodeBytes decodeUtf8 encodeUtf8
  rw [utf8Run_flatMap (utf16ToCodepoints s) _ (utf16_scalar s h) (le_refl _)]
  rw [bomStrip_of_head_ne _ (utf16_head_bom s h hbom)]
  exact utf16_roundtrip s h

/-- Round trip of the full cipher: whenever the XOR intermediate is a
well-formed UTF-16 sequence that does not begin with U+FEFF, `encrypt`
succeeds and `decrypt` recovers the plaintext with the same password. -/
theorem encrypt_decrypt (p t : List Nat)
    (hwf : wellFormedUtf16 (xorWith p 0 t) = true)
    (hbom : (xorWith p 0 t).head? ≠ some 0xFEFF) :
    encrypt t p = some (btoaEnc (encodeUtf8 (xorWith p 0 t))) ∧
    decrypt (btoaEnc (encodeUtf8 (xorWith p 0 t))) p = some t := by
  have hsc : ∀ c ∈ utf16ToCodepoints (xorWith p 0 t), isScalar c = true :=
    utf16_scalar _ hwf
  have hbytes : ∀ b ∈ encodeUtf8 (xorWith p 0 t), b < 256 := by
    unfold encodeUtf8
    exact flatMap_encCp_lt _ hsc
  constructor
  · unfold encrypt unicodeBase64Encode jsBtoa
    rw [if_pos (by rw [List.all_eq_true]; intro b hb; simpa using hbytes b hb)]
  · unfold decrypt unicodeBase64Decode
    rw [atob_btoa _ hbytes]
    simp only [Option.map_some']
    rw [decodeBytes_encodeUtf8 _ hwf hbom, xorWith_involution]

theorem jsLastIndexOf_neg_one (l : List Nat) (c : Nat) : -1 ≤ jsLastIndexOf l c := by
  induction l with
  | nil => simp [jsLastIndexOf]
  | cons a t ih =>
    simp only [jsLastIndexOf]
    split_ifs <;> omega

theorem jsLastIndexOf_lt (l : List Nat) (c : Nat) :
    jsLastIndexOf l c < (l.length : Int) := by
  induction l with
  | nil => simp [jsLastIndexOf]
  | cons a t ih =>
    simp only [jsLastIndexOf, List.length_cons]
    split_ifs <;> push_cast <;> omega

theorem jsLastIndexOf_neg : ∀ (l : List Nat) (c : Nat), jsLastIndexOf l c = -1 →
    ∀ j : Nat, l[j]? ≠ some c := by
  intro l
  induction l with
  | nil => intro c _ j; simp
  | cons a t ih =>
    intro c h j
    simp only [jsLastIndexOf] at h
    by_cases hr : jsLastIndexOf t c = -1
    · rw [if_pos hr] at h
      by_cases hac : a = c
      · rw [if_pos hac] at h
        exact absurd h (by omega)
      · cases j with
        | zero => simp [hac]
        | succ j2 =>
          simp only [List.getElem?_cons_succ]
          exact ih c hr j2
    · rw [if_neg hr] at h
      have hge := jsLastIndexOf_neg_one t c
      exact absurd h (by omega)

theorem jsLastIndexOf_eq_neg : ∀ (l : List Nat) (c : Nat),
    (∀ j : Nat, l[j]? ≠ some c) → jsLastIndexOf l c = -1 := by
  intro l
  induction l with
  | nil => intro c _; rfl
  | cons a t ih =>
    intro c h
    have hac : ¬a = c := by
      intro hac
      exact h 0 (by simp [hac])
    have ht : jsLastIndexOf t c = -1 := by
      apply ih
      intro j
      have := h (j + 1)
      simpa using this
    simp only [jsLastIndexOf, ht]
    rw [if_pos trivial, if_neg hac]

theorem jsLastIndexOf_spec : ∀ (l : List Nat) (c : Nat) (k : Nat),
    jsLastIndexOf l c = (k : Int) →
    l[k]? = some c ∧ ∀ j : Nat, k < j → l[j]? ≠ some c := by
  intro l
  induction l with
  | nil =>
    intro c k h
    simp only [jsLastIndexOf] at h
    exact absurd h (by omega)
  | cons a t ih =>
    intro c k h
    simp only [jsLastIndexOf] at h
    by_cases hr : jsLastIndexOf t c = -1
    · rw [if_pos hr] at h
      by_cases hac : a = c
      · rw [if_pos hac] at h
        have hk : k = 0 := by omega
        subst hk
        refine ⟨by simp [hac], ?_⟩
        intro j hj
        obtain ⟨j2, rfl⟩ : ∃ j2, j = j2 + 1 := ⟨j - 1, by omega⟩
        simp only [List.getElem?_cons_succ]
        exact jsLastIndexOf_neg t c hr j2
      · rw [if_neg hac] at h
        exact absurd h (by omega)
    · rw [if_neg hr] at h
      have hge := jsLastIndexOf_neg_one t c
      obtain ⟨k2, rfl⟩ : ∃ k2, k = k2 + 1 := ⟨k - 1, by omega⟩
      have ht : jsLastIndexOf t c = (k2 : Int) := by push_cast at h ⊢; omega
      obtain ⟨h1, h2⟩ := ih c k2 ht
      refine ⟨by simpa using h1, ?_⟩
      intro j hj
      obtain ⟨j2, rfl⟩ : ∃ j2, j = j2 + 1 := ⟨j - 1, by omega⟩
      simp only [List.getElem?_cons_succ]
      exact h2 j2 (by omega)

theorem jsLastIndexOf_last : ∀ (l : List Nat) (c : Nat) (k : Nat),
    l[k]? = some c → (∀ j : Nat, k < j → l[j]? ≠ some c) →
    jsLastIndexOf l c = (k : Int) := by
  intro l
  induction l with
  | nil => intro c k h1 _; simp at h1
  | cons a t ih =>
    intro c k h1 h2
    cases k with
    | zero =>
      simp only [List.getElem?_cons_zero, Option.some.injEq] at h1
      have hnone : ∀ j : Nat, t[j]? ≠ some c := by
        intro j
        have := h2 (j + 1) (by omega)
        simpa using this
      have ht := jsLastIndexOf_eq_neg t c hnone
      simp only [jsLastIndexOf, ht]
      rw [if_pos trivial, if_pos h1]
      simp
    | succ k2 =>
      simp only [List.getElem?_cons_succ] at h1
      have h2t : ∀ j : Nat, k2 < j → t[j]? ≠ some c := by
        intro j hj
        have := h2 (j + 1) (by omega)
        simpa using this
      have ht := ih c k2 h1 h2t
      simp only [jsLastIndexOf, ht]
      rw [if_neg (by omega)]
      push_cast
      omega

theorem maskUsername_invalid (email : List Nat)
    (h : jsLastIndexOf email 64 ≤ 0 ∨ (email.length : Int) - 1 ≤ jsLastIndexOf email 64) :
    maskUsername email = email := by
  by_cases he : email = []
  · simp only [maskUsername]
    rw [if_pos he]
  · simp only [maskUsername]
    rw [if_neg he, if_pos h]

theorem maskUsername_short (email : List Nat) (k : Nat)
    (hk : jsLastIndexOf email 64 = (k : Int)) (h1 : 0 < k)
    (h2 : (k : Int) < (email.length : Int) - 1) (h3 : k ≤ 2) :
    maskUsername email = email := by
  have he : email ≠ [] := by
    intro h
    subst h
    simp only [jsLastIndexOf] at hk
    omega
  simp only [maskUsername]
  rw [if_neg he, hk, if_neg (by omega)]
  simp only [Int.toNat_natCast]
  rw [if_pos (by simp only [List.length_take]; omega)]

theorem maskUsername_long (email : List Nat) (k : Nat)
    (hk : jsLastIndexOf email 64 = (k : Int))
    (h2 : (k : Int) < (email.length : Int) - 1) (h3 : 2 < k) :
    maskUsername email = charAtStr email 0 ++ List.replicate (k - 2) 42 ++
      charAtStr email (k - 1) ++ email.drop k := by
  have hlen : k + 2 ≤ email.length := by omega
  have he : email ≠ [] := List.ne_nil_of_length_pos (by omega)
  simp only [maskUsername]
  rw [if_neg he, hk, if_neg (by omega)]
  simp only [Int.toNat_natCast]
  have hlt : (email.take k).length = k := by
    rw [List.length_take]
    omega
  rw [hlt]
  rw [if_neg (by omega), if_neg (by omega)]
  have hc0 : charAtStr (email.take k) 0 = charAtStr email 0 := by
    unfold charAtStr
    rw [List.getElem?_take_of_lt (by omega)]
  have hc1 : charAtStr (email.take k) (k - 1) = charAtStr email (k - 1) := by
    unfold charAtStr
    rw [List.getElem?_take_of_lt (by omega)]
  rw [hc0, hc1]

/-- Structural dichotomy of `maskUsername`: either the input comes back
unchanged, or the result keeps the first local character, stars the middle,
keeps the last local character and the whole domain. -/
theorem maskUsername_cases (s : List Nat) :
    maskUsername s = s ∨
    ∃ (k a b : Nat), 2 < k ∧ (k : Int) < (s.length : Int) - 1 ∧
      jsLastIndexOf s 64 = (k : Int) ∧ s[0]? = some a ∧ s[k - 1]? = some b ∧
      maskUsername s = [a] ++ List.replicate (k - 2) 42 ++ [b] ++ s.drop k := by
  by_cases hg : jsLastIndexOf s 64 ≤ 0 ∨ (s.length : Int) - 1 ≤ jsLastIndexOf s 64
  · exact Or.inl (maskUsername_invalid s hg)
  · push_neg at hg
    obtain ⟨hg1, hg2⟩ := hg
    obtain ⟨k, hk⟩ : ∃ k : Nat, jsLastIndexOf s 64 = (k : Int) :=
      ⟨(jsLastIndexOf s 64).toNat, by omega⟩
    have hkpos : 0 < k := by omega
    have hkup : (k : Int) < (s.length : Int) - 1 := by omega
    by_cases hsh : k ≤ 2
    · exact Or.inl (maskUsername_short s k hk hkpos hkup hsh)
    · right
      have hlen : k + 2 ≤ s.length := by omega
      obtain ⟨a, ha⟩ : ∃ a, s[0]? = some a := by
        cases h0 : s[0]? with
        | none =>
          rw [List.getElem?_eq_none_iff] at h0
          omega
        | some a => exact ⟨a, rfl⟩
      obtain ⟨b, hbb⟩ : ∃ b, s[k - 1]? = some b := by
        cases h0 : s[k - 1]? with
        | none =>
          rw [List.getElem?_eq_none_iff] at h0
          omega
        | some b => exact ⟨b, rfl⟩
      refine ⟨k, a, b, by omega, hkup, hk, ha, hbb, ?_⟩
      rw [maskUsername_long s k hk hkup (by omega)]
      have h0 : charAtStr s 0 = [a] := by unfold charAtStr; rw [ha]
      have h1 : charAtStr s (k - 1) = [b] := by unfold charAtStr; rw [hbb]
      rw [h0, h1]

theorem maskUsername_mask_again (s : List Nat) (k a b : Nat) (h3 : 2 < k)
    (hup : (k : Int) < (s.length : Int) - 1) (hk : jsLastIndexOf s 64 = (k : Int))
    (_ha : s[0]? = some a) (_hb : s[k - 1]? = some b) :
    maskUsername ([a] ++ List.replicate (k - 2) 42 ++ [b] ++ s.drop k) =
      [a] ++ List.replicate (k - 2) 42 ++ [b] ++ s.drop k := by
  obtain ⟨hsk, hnost⟩ := jsLastIndexOf_spec s 64 k hk
  have hlen : k + 2 ≤ s.length := by omega
  have hassoc : [a] ++ List.replicate (k - 2) 42 ++ [b] ++ s.drop k =
      ([a] ++ List.replicate (k - 2) 42 ++ [b]) ++ s.drop k := by
    simp [List.append_assoc]
  have hPlen : ([a] ++ List.replicate (k - 2) 42 ++ [b]).length = k := by
    simp only [List.length_append, List.length_replicate, List.length_cons,
      List.length_nil]
    omega
  have hQlen : (([a] ++ List.replicate (k - 2) 42 ++ [b]) ++ s.drop k).length = s.length := by
    simp only [List.length_append, hPlen, List.length_drop]
    omega
  have hQk : (([a] ++ List.replicate (k - 2) 42 ++ [b]) ++ s.drop k)[k]? = some 64 := by
    rw [List.getElem?_append_right (by omega), hPlen, List.getElem?_drop]
    have h0 : k + (k - k) = k := by omega
    rw [h0]
    exact hsk
  have hQj : ∀ j : Nat, k < j →
      (([a] ++ List.replicate (k - 2) 42 ++ [b]) ++ s.drop k)[j]? ≠ some 64 := by
    intro j hj
    rw [List.getElem?_append_right (by omega), hPlen, List.getElem?_drop]
    have h0 : k + (j - k) = j := by omega
    rw [h0]
    exact hnost j hj
  have hQlast : jsLastIndexOf (([a] ++ List.replicate (k - 2) 42 ++ [b]) ++ s.drop k) 64 =
      (k : Int) :=
    jsLastIndexOf_last _ 64 k hQk hQj
  have hQup : (k : Int) <
      (((([a] ++ List.replicate (k - 2) 42 ++ [b]) ++ s.drop k).length : Nat) : Int) - 1 := by
    rw [hQlen]
    omega
  rw [hassoc]
  rw [maskUsername_long _ k hQlast hQup h3]
  have hc0 : charAtStr (([a] ++ List.replicate (k - 2) 42 ++ [b]) ++ s.drop k) 0 = [a] := by
    unfold charAtStr
    rw [List.getElem?_append_left (by omega), List.getElem?_append_left (by simp),
      List.getElem?_append_left (by simp)]
    rfl
  have hc1 : charAtStr (([a] ++ List.replicate (k - 2) 42 ++ [b]) ++ s.drop k) (k - 1) = [b] := by
    unfold charAtStr
    rw [List.getElem?_append_left (by omega)]
    have h12 : ([a] ++ List.replicate (k - 2) 42).length = k - 1 := by
      simp only [List.length_append, List.length_replicate, List.length_cons,
        List.length_nil]
      omega
    rw [List.getElem?_append_right (by omega), h12]
    have h0 : k - 1 - (k - 1) = 0 := by omega
    rw [h0]
    rfl
  have hdrop : (([a] ++ List.replicate (k - 2) 42 ++ [b]) ++ s.drop k).drop k = s.drop k := by
    have h0 := List.drop_left ([a] ++ List.replicate (k - 2) 42 ++ [b]) (s.drop k)
    rw [hPlen] at h0
    exact h0
  rw [hc0, hc1, hdrop]

/-- C1 counterexample: with the one-character password "耀" (U+8000) and
the one-character text "堀" (U+5800) the XOR intermediate is the unpaired
surrogate U+D800, which `TextEncoder` replaces by U+FFFD, so decryption
returns U+7FFD instead of the plaintext; and with the password "key" and
the one-character text U+FE94 the XOR intermediate is U+FEFF, which
`TextDecoder` strips as a byte-order mark, so decryption returns the empty
string.  The round trip fails for well-formed passwords and texts. -/
theorem c1_roundtrip_counterexample :
    (encrypt [22528] [32768] = some [55, 55, 43, 57] ∧
      decrypt [55, 55, 43, 57] [32768] = some [32765] ∧
      (32765 : Nat) ≠ 22528) ∧
    (encrypt [65172] [107, 101, 121] = some [55, 55, 117, 47] ∧
      decrypt [55, 55, 117, 47] [107, 101, 121] = some [] ∧
      ([] : List Nat) ≠ [65172]) := by decide

/-- C1 (amended): for every password `p` of length at least 1 and text `t`
whose XOR intermediate `xorWith p 0 t` is a well-formed UTF-16 sequence (no
unpaired surrogate code units) that does not begin with U+FEFF (which the
decoder would strip as a byte-order mark), encryption succeeds and
`decrypt (encrypt t p) p = t`; both functions are pure. -/
theorem c1_encrypt_decrypt_roundtrip (p t : List Nat) (_hp : p ≠ [])
    (hwf : wellFormedUtf16 (xorWith p 0 t) = true)
    (hbom : (xorWith p 0 t).head? ≠ some 0xFEFF) :
    ∃ enc, encrypt t p = some enc ∧ decrypt enc p = some t := by
  obtain ⟨h1, h2⟩ := encrypt_decrypt p t hwf hbom
  exact ⟨_, h1, h2⟩

/-- C1 witness: the round trip at text "hi" and password "key". -/
theorem c1_roundtrip_witness :
    ∃ enc, encrypt [104, 105] [107, 101, 121] = some enc ∧
      decrypt enc [107, 101, 121] = some [104, 105] :=
  c1_encrypt_decrypt_roundtrip [107, 101, 121] [104, 105] (by decide) (by decide)
    (by decide)

/-- C2: the code returns "ab@b.com" unchanged because the `length <= 2`
guard precedes the `length === 2` branch, leaving that branch unreachable;
the spec (and the dead branch itself) expect "a*@b.com". -/
theorem c2_mask_local2_unchanged :
    maskUsername [97, 98, 64, 98, 46, 99, 111, 109] =
      [97, 98, 64, 98, 46, 99, 111, 109] := by decide

/-- C3 counterexample: `minimizeToTray` has no catch, so a backend
rejection escapes to the caller unchanged, and `saveSystemTrayState`
rethrows a wrapped error instead of returning a status value. -/
theorem c3_rejection_escapes :
    minimizeToTray (Except.error "backend failure") = Except.error "backend failure" ∧
    saveSystemTrayState (Except.error "io error") =
      Except.error ("保存系统托盘状态失败: " ++ "io error") :=
  ⟨rfl, rfl⟩

/-- C3 (amended): the status-returning operations (enable, disable,
toggle, getSystemTrayState) catch at their boundary and return structured
values for every backend outcome, but `minimizeToTray`, `restoreFromTray`
and `isSystemTrayEnabled` propagate the backend outcome unchanged, and
`saveSystemTrayState` and `getBackupList` catch and rethrow wrapped
errors. -/
theorem c3_error_boundaries : ∀ (e m : String) (r : Except String String)
    (rb : Except String Bool),
    enableSystemTray (Except.error e) = ⟨false, some ("启用系统托盘失败: " ++ e)⟩ ∧
    disableSystemTray (Except.error e) = ⟨false, some ("禁用系统托盘失败: " ++ e)⟩ ∧
    toggleSystemTray true (Except.ok m) = ⟨true, some m⟩ ∧
    toggleSystemTray false (Except.ok m) = ⟨false, some m⟩ ∧
    getSystemTrayState (Except.error e) = true ∧
    minimizeToTray r = r ∧
    restoreFromTray r = r ∧
    isSystemTrayEnabled rb = rb ∧
    saveSystemTrayState (Except.error e) = Except.error ("保存系统托盘状态失败: " ++ e) ∧
    getBackupList (Except.error e) = Except.error ("获取备份列表失败: " ++ e) := by
  intro e m r rb
  exact ⟨rfl, rfl, rfl, rfl, rfl, rfl, rfl, rfl, rfl, rfl⟩

/-- C4 counterexample: when the tray enable succeeds but the persistence
write fails, `enableSystemTrayWithSave` reports `enabled = false`, not the
toggled state `true` the claim asserts. -/
theorem c4_enable_save_failure :
    (enableSystemTrayWithSave (Except.ok "已启用") (Except.error "磁盘错误")).enabled
      = false := rfl

/-- C4 (amended): on a persistence failure after a successful toggle no
rollback command is issued, and `disableSystemTrayWithSave` still reports
the toggled state `enabled = false`; `enableSystemTrayWithSave` however
reports `enabled = false` with a wrapped failure message instead of the
toggled state `true`. -/
theorem c4_with_save_behavior : ∀ (m e : String) (er dr : Except String String),
    (disableSystemTrayWithSave (Except.ok m) (Except.error e)).enabled = false ∧
    enableSystemTrayWithSave (Except.ok m) (Except.error e) =
      ⟨false, some ("启用系统托盘失败: Error: " ++ ("保存系统托盘状态失败: " ++ e))⟩ ∧
    "disable_system_tray" ∉ enableSystemTrayWithSaveCalls er ∧
    "enable_system_tray" ∉ disableSystemTrayWithSaveCalls dr := by
  intro m e er dr
  refine ⟨rfl, rfl, ?_, ?_⟩
  · unfold enableSystemTrayWithSaveCalls
    split_ifs <;> simp
  · unfold disableSystemTrayWithSaveCalls
    split_ifs <;> simp

/-- C5: `decrypt` throws exactly when the base64 stage (`atob`) of the
input fails; whenever the input decodes, any password — right or wrong —
produces a result without failing. -/
theorem c5_decrypt_fails_iff_base64 : ∀ (s p : List Nat),
    decrypt s p = none ↔ atobDec s = none := by
  intro s p
  unfold decrypt unicodeBase64Decode
  cases h : atobDec s <;> simp [h]

/-- C6: `validatePassword` reports invalid exactly when the password is
empty or shorter than 4 characters, and valid for length at least 4. -/
theorem c6_validatePassword : ∀ p : List Nat,
    (validatePassword p).isValid = false ↔ p.length < 4 := by
  intro p
  unfold validatePassword
  split_ifs <;> simp <;> omega

/-- C7: with a last `@` at position `k` with `0 < k < length - 1` and a
local part longer than 2, `maskUsername` keeps the first local character,
emits `k - 2` stars, keeps the last local character and the domain; with
no `@`, an `@` first or an `@` last, the input comes back unchanged. -/
theorem c7_mask_shape : (∀ (email : List Nat) (k : Nat),
    jsLastIndexOf email 64 = (k : Int) → (k : Int) < (email.length : Int) - 1 →
    2 < k →
    maskUsername email = charAtStr email 0 ++ List.replicate (k - 2) 42 ++
      charAtStr email (k - 1) ++ email.drop k) ∧
    (∀ email : List Nat,
      (jsLastIndexOf email 64 ≤ 0 ∨ (email.length : Int) - 1 ≤ jsLastIndexOf email 64) →
      maskUsername email = email) :=
  ⟨maskUsername_long, maskUsername_invalid⟩

/-- C7 witness: "abcd@x.com" is masked to "a**d@x.com" and "no-at-sign"
comes back unchanged. -/
theorem c7_mask_witness :
    maskUsername [97, 98, 99, 100, 64, 120, 46, 99, 111, 109] =
      charAtStr [97, 98, 99, 100, 64, 120, 46, 99, 111, 109] 0 ++
      List.replicate (4 - 2) 42 ++
      charAtStr [97, 98, 99, 100, 64, 120, 46, 99, 111, 109] (4 - 1) ++
      List.drop 4 [97, 98, 99, 100, 64, 120, 46, 99, 111, 109] ∧
    maskUsername [110, 111, 45, 97, 116] = [110, 111, 45, 97, 116] :=
  ⟨c7_mask_shape.1 _ 4 (by decide) (by decide) (by decide),
    c7_mask_shape.2 _ (by decide)⟩

/-- C8: `getSystemTrayState` resolves to `true` whenever the backend call
rejects and returns the backend boolean unchanged when it succeeds. -/
theorem c8_getSystemTrayState : ∀ (e : String) (b : Bool),
    getSystemTrayState (Except.error e) = true ∧
    getSystemTrayState (Except.ok b) = b := by
  intro e b
  exact ⟨rfl, rfl⟩

/-- C9 counterexample: for the lone-surrogate string t = "\uD800",
`encrypt` with the empty password succeeds and equals the plain encoding,
but `decrypt (encrypt t "") ""` returns U+FFFD, not t; and for the
one-character string t consisting of U+FEFF alone, the decryption of
`encrypt t ""` is the empty string: `TextDecoder` strips the BOM.  The
round-trip conjunct of the claim is false as universally stated. -/
theorem c9_empty_counterexample :
    (encrypt [55296] [] = some [55, 55, 43, 57] ∧
      decrypt [55, 55, 43, 57] [] = some [65533] ∧
      (65533 : Nat) ≠ 55296) ∧
    (encrypt [65279] [] = some [55, 55, 117, 47] ∧
      decrypt [55, 55, 117, 47] [] = some [] ∧
      ([] : List Nat) ≠ [65279]) := by decide

/-- C9 (amended): with the empty password the XOR step is the identity, so
`encrypt t ""` never fails beyond what the plain encoding does and equals
the plain Unicode-safe base64 encoding of `t`; and for every `t` free of
unpaired surrogates that does not begin with U+FEFF (which the decoder
would strip as a byte-order mark), `decrypt (encrypt t "") "" = t`. -/
theorem c9_empty_password (t : List Nat) :
    encrypt t [] = unicodeBase64Encode t ∧ xorWith [] 0 t = t ∧
    (wellFormedUtf16 t = true → t.head? ≠ some 0xFEFF →
      ∃ enc, encrypt t [] = some enc ∧ decrypt enc [] = some t) := by
  refine ⟨?_, xorWith_nil 0 t, ?_⟩
  · unfold encrypt
    rw [xorWith_nil]
  · intro hwf hbom
    have hwf2 : wellFormedUtf16 (xorWith [] 0 t) = true := by
      rw [xorWith_nil]
      exact hwf
    have hbom2 : (xorWith [] 0 t).head? ≠ some 0xFEFF := by
      rw [xorWith_nil]
      exact hbom
    obtain ⟨h1, h2⟩ := encrypt_decrypt [] t hwf2 hbom2
    exact ⟨_, h1, h2⟩

/-- C9 witness: the empty-password properties at the text "hi". -/
theorem c9_empty_witness :
    encrypt [104, 105] [] = unicodeBase64Encode [104, 105] ∧
    xorWith [] 0 [104, 105] = [104, 105] ∧
    (∃ enc, encrypt [104, 105] [] = some enc ∧ decrypt enc [] = some [104, 105]) :=
  have h := c9_empty_password [104, 105]
  ⟨h.1, h.2.1, h.2.2 (by decide) (by decide)⟩

/-- C10: `maskUsername` preserves the length of its input, leaves the
substring from the last `@` onward unchanged, and is idempotent. -/
theorem c10_mask_invariants : ∀ s : List Nat,
    (maskUsername s).length = s.length ∧
    (maskUsername s).drop (jsLastIndexOf s 64).toNat =
      s.drop (jsLastIndexOf s 64).toNat ∧
    maskUsername (maskUsername s) = maskUsername s := by
  intro s
  rcases maskUsername_cases s with heq | ⟨k, a, b, h3, hup, hk, ha, hb, hR⟩
  · exact ⟨by rw [heq], by rw [heq], by rw [heq, heq]⟩
  · have hlen : k + 2 ≤ s.length := by omega
    have hassoc : [a] ++ List.replicate (k - 2) 42 ++ [b] ++ s.drop k =
        ([a] ++ List.replicate (k - 2) 42 ++ [b]) ++ s.drop k := by
      simp [List.append_assoc]
    have hPlen : ([a] ++ List.replicate (k - 2) 42 ++ [b]).length = k := by
      simp only [List.length_append, List.length_replicate, List.length_cons,
        List.length_nil]
      omega
    refine ⟨?_, ?_, ?_⟩
    · rw [hR]
      simp only [List.length_append, List.length_replicate, List.length_cons,
        List.length_nil, List.length_drop]
      omega
    · rw [hR, hk]
      simp only [Int.toNat_natCast]
      rw [hassoc]
      have h0 := List.drop_left ([a] ++ List.replicate (k - 2) 42 ++ [b]) (s.drop k)
      rw [hPlen] at h0
      rw [h0]
    · rw [hR]
      exact maskUsername_mask_again s k a b h3 hup hk ha hb

end Antigravity
